import Mathlib

/-!
Shallow embedding of the adaptive tetrahedral remeshing core
(`Tetrahedral_remeshing/internal/tetrahedral_adaptive_remeshing_impl.h`)
and of the finite-element triangulation iterators
(`Triangulation_3/include/CGAL/Triangulation_iterators_3.h`).

The number type `FT` is embedded as the rationals; `Subdomain_index` is an
integer with `0` playing the role of the default value `NONE`; vertex handles
are natural numbers indexing the triangulation vertex sequence, and the
`in_dimension` attribute is a total function from vertex indices to integers.
-/

namespace CGALRemeshing

abbrev FT := ℚ

/-- A finite cell as the remeshing code reads it: its four vertex indices
(`cit->vertex(i)`), its neighbor indices, and its `subdomain_index`. -/
structure Cell where
  vs : List Nat
  nbrs : List Nat
  subdomain : Int
deriving DecidableEq

/-- A finite facet as the facet-tagging loop of `init_c3t3` reads it:
`s1 = f.first->subdomain_index()`, `s2 = mirror_facet(f).first->subdomain_index()`,
and the three vertices `f.first->vertex(vertex_triple_index(f.second, j))`,
`j = 0, 1, 2`. The `mirror_facet` and `vertex_triple_index` primitives are
consumed interfaces of the triangulation container, so a facet record carries
their results. -/
structure Facet where
  s1 : Int
  s2 : Int
  vs : List Nat
deriving DecidableEq

/-- A finite edge as the edge-tagging loop reads it: the two endpoint vertex
indices `e.first->vertex(e.second)` and `e.first->vertex(e.third)`, and the
subdomain indices of its incident cells (consumed by the helper
`nb_incident_subdomains`). -/
structure Edge where
  v1 : Nat
  v2 : Nat
  incSubs : List Int
deriving DecidableEq

/-- The decorated triangulation: `nv` finite vertices with their
`in_dimension` values and positions, and the finite cell, facet and edge
sequences the iterators of `init_c3t3` traverse. -/
structure Tri where
  nv : Nat
  dims : Nat → Int
  pos : Nat → FT × FT × FT
  cells : List Cell
  facets : List Facet
  edges : List Edge

/-- Modelled from the spec: the complex of `Mesh_complex_3_in_triangulation_3`
(whose code is not among the repository files) is a set of marked elements
overlaid on the triangulation: complex cells keyed by subdomain index, complex
facets, complex edges, and corners keyed by their corner id, together with the
`imaginary_index` and the non-fatal warning flag of initialization. -/
structure C3t3 where
  tri : Tri
  complexCells : List (Nat × Int)
  complexFacets : List Facet
  complexEdges : List Edge
  corners : List (Nat × Nat)
  imaginaryIndex : Int
  warned : Bool

/-- Pointwise update of the `in_dimension` assignment (`v->set_dimension(x)`). -/
def upd (d : Nat → Int) (v : Nat) (x : Int) : Nat → Int :=
  fun u => if u = v then x else d u

/-- One conditional-lowering sweep over a list of vertices: each vertex whose
current dimension satisfies `cond` is set to `x`. This is the common shape of
the vertex-dimension updates inside the three tagging loops of `init_c3t3`. -/
def bumpAll (cond : Int → Bool) (x : Int) (d : Nat → Int) (vs : List Nat) : Nat → Int :=
  vs.foldl (fun d u => if cond (d u) then upd d u x else d) d

/-- Accumulator of the cell-tagging loop of `init_c3t3` (lines 304 to 325):
the evolving dimensions, the complex cells added so far, and `max_si`. -/
structure CellAcc where
  dims : Nat → Int
  cc : List (Nat × Int)
  maxSi : Int

/-- One iteration of the cell-tagging loop: when the cell selector accepts the
cell it is added to the complex under its subdomain index and `max_si` is
updated; then, for every cell (selected or not), each of its four vertices
with `in_dimension == -1` is set to dimension 3. -/
def tagCellStep (sel : Cell → Bool) (a : CellAcc) (p : Nat × Cell) : CellAcc :=
  let a1 := if sel p.2 then
      { a with cc := a.cc ++ [(p.1, p.2.subdomain)]
             , maxSi := max a.maxSi p.2.subdomain }
    else a
  { a1 with dims := bumpAll (fun t => t == -1) 3 a1.dims p.2.vs }

/-- The cell-tagging loop over all finite cells, paired with their indices. -/
def tagCells (sel : Cell → Bool) (cells : List Cell) (d : Nat → Int) : CellAcc :=
  cells.enum.foldl (tagCellStep sel) ⟨d, [], 0⟩

/-- One iteration of the facet-tagging loop (lines 331 to 357): a facet whose
two incident subdomain indices differ is added to the complex and each of its
three vertices with dimension `-1` or above `2` is set to dimension 2. -/
def tagFacetStep (a : (Nat → Int) × List Facet) (f : Facet) : (Nat → Int) × List Facet :=
  if f.s1 ≠ f.s2 then
    (bumpAll (fun t => t == -1 || t > 2) 2 a.1 f.vs, a.2 ++ [f])
  else a

/-- The facet-tagging loop over all finite facets. -/
def tagFacets (facets : List Facet) (d : Nat → Int) : (Nat → Int) × List Facet :=
  facets.foldl tagFacetStep (d, [])

/-- Modelled from the spec: the helper `nb_incident_subdomains` (not among the
repository files) counts the distinct subdomain indices incident to an edge. -/
def nbIncidentSubdomains (e : Edge) : Nat :=
  e.incSubs.dedup.length

/-- The condition of the edge-tagging loop: the edge is declared constrained
by the property map, or has more than 2 incident subdomains. -/
def edgeIsComplex (ecmap : Nat → Nat → Bool) (e : Edge) : Bool :=
  ecmap e.v1 e.v2 || nbIncidentSubdomains e > 2

/-- One iteration of the edge-tagging loop (lines 363 to 386): a constrained
or non-manifold edge is added to the complex and each endpoint with dimension
`-1` or above `1` is set to dimension 1 (first `e.second`, then `e.third`). -/
def tagEdgeStep (ecmap : Nat → Nat → Bool) (a : (Nat → Int) × List Edge) (e : Edge) :
    (Nat → Int) × List Edge :=
  if edgeIsComplex ecmap e then
    (bumpAll (fun t => t == -1 || t > 1) 1 a.1 [e.v1, e.v2], a.2 ++ [e])
  else a

/-- The edge-tagging loop over all finite edges. -/
def tagEdges (ecmap : Nat → Nat → Bool) (edges : List Edge) (d : Nat → Int) :
    (Nat → Int) × List Edge :=
  edges.foldl (tagEdgeStep ecmap) (d, [])

/-- Modelled from the spec: the helper `nb_incident_complex_edges` (not among
the repository files) counts the complex edges incident to a vertex. -/
def nbIncidentComplexEdges (ce : List Edge) (v : Nat) : Nat :=
  (ce.filter (fun e => e.v1 == v || e.v2 == v)).length

/-- Accumulator of the vertex-tagging loop: dimensions, registered corners
with their corner ids, and the running corner id counter. -/
structure VertAcc where
  dims : Nat → Int
  corners : List (Nat × Nat)
  cid : Nat

/-- One iteration of the vertex-tagging loop (lines 391 to 410): a vertex with
dimension 0 or more than 2 incident complex edges is registered as a corner
under the pre-incremented corner id, and its dimension is set to 0 when it is
`-1` or above `0`. -/
def tagVertexStep (ce : List Edge) (a : VertAcc) (v : Nat) : VertAcc :=
  if a.dims v = 0 ∨ nbIncidentComplexEdges ce v > 2 then
    { dims := if a.dims v = -1 ∨ a.dims v > 0 then upd a.dims v 0 else a.dims
    , corners := a.corners ++ [(v, a.cid + 1)]
    , cid := a.cid + 1 }
  else a

/-- The vertex-tagging loop over all finite vertices. -/
def tagVertices (ce : List Edge) (nv : Nat) (d : Nat → Int) : VertAcc :=
  (List.range nv).foldl (tagVertexStep ce) ⟨d, [], 0⟩

/-- `Adaptive_remesher::init_c3t3` (lines 295 to 422): tag the cells, set
`imaginary_index = max_si + 1` (warning, non-fatal, when `max_si` is 0), then
tag the facets, edges and vertices. -/
def init_c3t3 (sel : Cell → Bool) (ecmap : Nat → Nat → Bool) (t : Tri) : C3t3 :=
  let a1 := tagCells sel t.cells t.dims
  let a3 := tagFacets t.facets a1.dims
  let a4 := tagEdges ecmap t.edges a3.1
  let a5 := tagVertices a4.2 t.nv a4.1
  { tri := { t with dims := a5.dims }
  , complexCells := a1.cc
  , complexFacets := a3.2
  , complexEdges := a4.2
  , corners := a5.corners
  , imaginaryIndex := a1.maxSi + 1
  , warned := a1.maxSi == 0 }

/-- `Adaptive_remesher::check_vertex_dimensions` (lines 426 to 436): true when
no finite vertex has `in_dimension` below 0 or above 3. -/
def check_vertex_dimensions (c : C3t3) : Bool :=
  (List.range c.tri.nv).all (fun v => !(c.tri.dims v < 0 || c.tri.dims v > 3))

/-! The resolution criterion (`Adaptive_remesher::resolution_reached`,
lines 215 to 248). The loop body consults `m_c3t3.is_in_complex(e)` and the
helpers `is_boundary` and `is_imaginary`, whose code is not among the
repository files; a resolution edge record therefore carries the three
boolean attributes together with the squared length `tr().segment(e).squared_length()`. -/

/-- A finite edge as the resolution loop reads it. -/
structure REdge where
  inComplex : Bool
  isBoundary : Bool
  isImaginary : Bool
  sqlen : FT
deriving DecidableEq

/-- `emin = (4/5) * target_edge_length`. -/
def emin (L : FT) : FT := 4/5 * L

/-- `emax = (4/3) * target_edge_length`. -/
def emax (L : FT) : FT := 4/3 * L

/-- The loop of `resolution_reached`: a complex or boundary edge is skipped
only when `m_protect_boundaries` holds; an imaginary edge is always skipped;
any other edge whose squared length leaves `[sqmin, sqmax]` makes the whole
function return false. -/
def resolutionLoop (protect : Bool) (sqmin sqmax : FT) : List REdge → Bool
  | [] => true
  | e :: rest =>
    if protect && (e.inComplex || e.isBoundary) then resolutionLoop protect sqmin sqmax rest
    else if e.isImaginary then resolutionLoop protect sqmin sqmax rest
    else if e.sqlen < sqmin ∨ e.sqlen > sqmax then false
    else resolutionLoop protect sqmin sqmax rest

/-- `Adaptive_remesher::resolution_reached` over the finite edge sequence,
with `L` the value `m_sizing(CGAL::ORIGIN)`. -/
def resolution_reached (protect : Bool) (L : FT) (edges : List REdge) : Bool :=
  resolutionLoop protect (emin L * emin L) (emax L * emax L) edges

/-- The resolution criterion as the claim words it: every finite edge that is
neither complex nor boundary nor imaginary (for every value of the
protect_boundaries flag) has its squared length inside `[emin ^ 2, emax ^ 2]`. -/
def resolutionClaim (L : FT) (edges : List REdge) : Bool :=
  edges.all (fun e =>
    (e.inComplex || e.isBoundary || e.isImaginary)
    || decide (emin L * emin L ≤ e.sqlen ∧ e.sqlen ≤ emax L * emax L))

/-! `Adaptive_remesher::postprocess` (lines 250 to 277). -/

/-- Modelled from the spec: `Mesh_complex_3_in_triangulation_3::remove_from_complex`
on a cell (its code is not among the repository files) removes the cell from
the overlay set of complex cells and touches nothing else. -/
def remove_from_complex (cc : List (Nat × Int)) (i : Nat) : List (Nat × Int) :=
  cc.filter (fun q => q.1 ≠ i)

/-- `Adaptive_remesher::postprocess`: every finite cell whose subdomain index
equals `m_imaginary_index` is removed from the complex. -/
def postprocess (c : C3t3) : C3t3 :=
  let cc := c.tri.cells.enum.foldl
    (fun cc p => if p.2.subdomain = c.imaginaryIndex then remove_from_complex cc p.1 else cc)
    c.complexCells
  { c with complexCells := cc }

/-! The swap pair of `Adaptive_remesher` (constructor line 116 and
`finalize`, lines 279 to 282). -/

/-- The default-constructed triangulation held by a fresh `m_c3t3`. -/
def emptyTri : Tri :=
  { nv := 0, dims := fun _ => -1, pos := fun _ => (0, 0, 0)
  , cells := [], facets := [], edges := [] }

/-- The two triangulation storages of a live `Adaptive_remesher`: the object
the caller passed (aliased by the reference member `m_tr`) and the internal
`m_c3t3.triangulation()`. -/
structure RemState where
  m_tr : Tri
  m_c3t3_tr : Tri

/-- The constructor body line `m_c3t3.triangulation().swap(tr)`: the contents
of the caller triangulation and of the default-constructed internal
triangulation are exchanged. -/
def constructRemesher (tr : Tri) : RemState :=
  { m_tr := emptyTri, m_c3t3_tr := tr }

/-- `Adaptive_remesher::finalize`: `m_tr.swap(m_c3t3.triangulation())`. -/
def finalizeRemesher (s : RemState) : RemState :=
  { m_tr := s.m_c3t3_tr, m_c3t3_tr := s.m_tr }

/-! The finite-mode triangulation iterators of `Triangulation_iterators_3.h`.
An element sequence is embedded as the list of its `is_infinite` flags; an
iterator position is an index into that list, with the list length standing
for the past-the-end position. -/

/-- The skipping loop shared by the finite cell, facet and edge iterators:
advance while the current element exists and is infinite. -/
def skipInfinite (inf : List Bool) (i : Nat) : Nat :=
  if h : i < inf.length then
    if inf.get ⟨i, h⟩ then skipInfinite inf (i + 1) else i
  else i
termination_by inf.length - i

/-- The finite-mode cell iterator constructor (lines 79 to 89): skip the
leading infinite cells. The source omits the end guard of this first loop
because a 3-dimensional triangulation has at least one finite cell; the
embedding stops at the past-the-end position, where the two agree. -/
def cellItBegin (inf : List Bool) : Nat := skipInfinite inf 0

/-- `CGAL_Triangulation_cell_iterator_3::operator++` in finite mode
(lines 129 to 142): advance once, then skip infinite cells while not past
the end. -/
def cellItNext (inf : List Bool) (i : Nat) : Nat := skipInfinite inf (i + 1)

/-- `CGAL_Triangulation_edge_iterator_3::operator++` in finite mode
(lines 391 to 404): same do-while shape as the cell iterator. -/
def edgeItNext (inf : List Bool) (i : Nat) : Nat := skipInfinite inf (i + 1)

/-- `CGAL_Triangulation_facet_iterator_3::operator++` in finite mode
(lines 518 to 531): same do-while shape as the cell iterator. -/
def facetItNext (inf : List Bool) (i : Nat) : Nat := skipInfinite inf (i + 1)

/-- The finite-mode vertex iterator constructor (lines 211 to 219): skip the
first vertex when it is infinite, once. -/
def vertexItBegin (inf : List Bool) : Nat :=
  if inf.getD 0 false then 1 else 0

/-- `CGAL_Triangulation_vertex_iterator_3::operator++` in finite mode
(lines 259 to 272): advance once, then once more when the vertex reached is
infinite; at most one vertex is skipped per advance. -/
def vertexItNext (inf : List Bool) (i : Nat) : Nat :=
  if inf.getD (i + 1) false then i + 2 else i + 1

/-! Pointwise characterizations of the dimension-update sweeps. -/

theorem bumpAll_apply (cond : Int → Bool) (x : Int) (hx : cond x = false)
    (vs : List Nat) : ∀ (d : Nat → Int) (u : Nat),
    bumpAll cond x d vs u = if cond (d u) = true ∧ u ∈ vs then x else d u := by
  induction vs with
  | nil =>
    intro d u
    simp [bumpAll]
  | cons w vs ih =>
    intro d u
    have step : bumpAll cond x d (w :: vs)
        = bumpAll cond x (if cond (d w) = true then upd d w x else d) vs := by
      simp [bumpAll]
    rw [step, ih]
    by_cases hw : cond (d w) = true
    · by_cases huw : u = w
      · subst huw
        simp [hw, upd, hx]
      · simp [hw, upd, huw, List.mem_cons]
    · have hd : (if cond (d w) = true then upd d w x else d) = d := by simp [hw]
      rw [hd]
      by_cases huw : u = w
      · subst huw
        simp [hw, List.mem_cons]
      · simp [huw, List.mem_cons]

theorem foldTag_apply {α : Type} (g : α → Prop) [DecidablePred g] (vsOf : α → List Nat)
    (cond : Int → Bool) (x : Int) (hx : cond x = false)
    (l : List α) : ∀ (d : Nat → Int) (u : Nat),
    l.foldl (fun d y => if g y then bumpAll cond x d (vsOf y) else d) d u
      = if cond (d u) = true ∧ ∃ y ∈ l, g y ∧ u ∈ vsOf y then x else d u := by
  induction l with
  | nil =>
    intro d u
    simp
  | cons y l ih =>
    intro d u
    rw [List.foldl_cons, ih]
    by_cases hg : g y
    · have hd : (if g y then bumpAll cond x d (vsOf y) else d) = bumpAll cond x d (vsOf y) := by
        simp [hg]
      rw [hd, bumpAll_apply cond x hx]
      by_cases hc : cond (d u) = true ∧ u ∈ vsOf y
      · simp only [hc, if_true, hx, false_and, if_false]
        simp [hc.1, hg, hc.2]
      · have hd2 : (if cond (d u) = true ∧ u ∈ vsOf y then x else d u) = d u := by simp [hc]
        rw [hd2]
        by_cases hcu : cond (d u) = true
        · have hnm : ¬ u ∈ vsOf y := fun hm => hc ⟨hcu, hm⟩
          simp [hcu, List.mem_cons, hnm, hg]
        · simp [hcu]
    · have hd : (if g y then bumpAll cond x d (vsOf y) else d) = d := by simp [hg]
      rw [hd]
      by_cases hcu : cond (d u) = true
      · simp [hcu, List.mem_cons, hg]
      · simp [hcu]

theorem foldTagAll_apply {α : Type} (vsOf : α → List Nat)
    (cond : Int → Bool) (x : Int) (hx : cond x = false)
    (l : List α) (d : Nat → Int) (u : Nat) :
    l.foldl (fun dd y => bumpAll cond x dd (vsOf y)) d u
      = if cond (d u) = true ∧ ∃ y ∈ l, u ∈ vsOf y then x else d u := by
  have h := foldTag_apply (fun _ : α => True) vsOf cond x hx l d u
  simpa using h

theorem exists_enum_snd {α : Type} (l : List α) (P : α → Prop) :
    (∃ p ∈ l.enum, P p.2) ↔ ∃ c ∈ l, P c := by
  constructor
  · rintro ⟨p, hp, hP⟩
    refine ⟨p.2, ?_, hP⟩
    rw [← List.enum_map_snd l]
    exact List.mem_map_of_mem _ hp
  · rintro ⟨c, hc, hP⟩
    rw [← List.enum_map_snd l] at hc
    obtain ⟨p, hp, he⟩ := List.mem_map.mp hc
    exact ⟨p, hp, he ▸ hP⟩

/-! Projections of the cell-tagging loop. -/

theorem tagCellStep_dims (sel : Cell → Bool) (a : CellAcc) (p : Nat × Cell) :
    (tagCellStep sel a p).dims = bumpAll (fun t => t == -1) 3 a.dims p.2.vs := by
  unfold tagCellStep
  by_cases h : sel p.2 <;> simp [h]

theorem tagCellStep_cc (sel : Cell → Bool) (a : CellAcc) (p : Nat × Cell) :
    (tagCellStep sel a p).cc = a.cc ++ if sel p.2 then [(p.1, p.2.subdomain)] else [] := by
  unfold tagCellStep
  by_cases h : sel p.2 <;> simp [h]

theorem tagCellStep_maxSi (sel : Cell → Bool) (a : CellAcc) (p : Nat × Cell) :
    (tagCellStep sel a p).maxSi = if sel p.2 then max a.maxSi p.2.subdomain else a.maxSi := by
  unfold tagCellStep
  by_cases h : sel p.2 <;> simp [h]

theorem tagCellsFold_dims (sel : Cell → Bool) (l : List (Nat × Cell)) :
    ∀ a : CellAcc, (l.foldl (tagCellStep sel) a).dims
      = l.foldl (fun dd p => bumpAll (fun t => t == -1) 3 dd p.2.vs) a.dims := by
  induction l with
  | nil => intro a; rfl
  | cons p l ih =>
    intro a
    rw [List.foldl_cons, List.foldl_cons, ih, tagCellStep_dims]

theorem tagCells_dims_apply (sel : Cell → Bool) (cells : List Cell) (d0 : Nat → Int) (u : Nat) :
    (tagCells sel cells d0).dims u
      = if d0 u = -1 ∧ ∃ c ∈ cells, u ∈ c.vs then 3 else d0 u := by
  unfold tagCells
  rw [tagCellsFold_dims]
  rw [foldTagAll_apply (fun p : Nat × Cell => p.2.vs) (fun t => t == -1) 3 (by decide)]
  simp only [beq_iff_eq, exists_enum_snd cells (fun c => u ∈ c.vs)]

theorem tagCellsFold_cc (sel : Cell → Bool) (l : List (Nat × Cell)) :
    ∀ a : CellAcc, (l.foldl (tagCellStep sel) a).cc
      = a.cc ++ (l.filter (fun p => sel p.2)).map (fun p => (p.1, p.2.subdomain)) := by
  induction l with
  | nil => intro a; simp
  | cons p l ih =>
    intro a
    rw [List.foldl_cons, ih]
    rw [tagCellStep_cc]
    by_cases h : sel p.2 <;> simp [h, List.filter_cons]

theorem tagCellsFold_maxSi (sel : Cell → Bool) (l : List (Nat × Cell)) :
    ∀ a : CellAcc, (l.foldl (tagCellStep sel) a).maxSi
      = (((l.map Prod.snd).filter sel).map Cell.subdomain).foldl max a.maxSi := by
  induction l with
  | nil => intro a; rfl
  | cons p l ih =>
    intro a
    rw [List.foldl_cons, ih, tagCellStep_maxSi]
    by_cases h : sel p.2 <;> simp [h, List.filter_cons]

/-! Projections of the facet-tagging loop. -/

theorem tagFacetStep_fst (a : (Nat → Int) × List Facet) (f : Facet) :
    (tagFacetStep a f).1
      = if f.s1 ≠ f.s2 then bumpAll (fun t => t == -1 || t > 2) 2 a.1 f.vs else a.1 := by
  unfold tagFacetStep
  by_cases h : f.s1 ≠ f.s2 <;> simp [h]

theorem tagFacetStep_snd (a : (Nat → Int) × List Facet) (f : Facet) :
    (tagFacetStep a f).2 = a.2 ++ if f.s1 ≠ f.s2 then [f] else [] := by
  unfold tagFacetStep
  by_cases h : f.s1 ≠ f.s2 <;> simp [h]

theorem tagFacetsFold_fst (l : List Facet) :
    ∀ a : (Nat → Int) × List Facet, (l.foldl tagFacetStep a).1
      = l.foldl (fun dd f => if f.s1 ≠ f.s2 then bumpAll (fun t => t == -1 || t > 2) 2 dd f.vs else dd) a.1 := by
  induction l with
  | nil => intro a; rfl
  | cons f l ih =>
    intro a
    rw [List.foldl_cons, List.foldl_cons, ih, tagFacetStep_fst]

theorem tagFacets_fst_apply (facets : List Facet) (d0 : Nat → Int) (u : Nat) :
    (tagFacets facets d0).1 u
      = if (d0 u = -1 ∨ d0 u > 2) ∧ ∃ f ∈ facets, f.s1 ≠ f.s2 ∧ u ∈ f.vs then 2 else d0 u := by
  unfold tagFacets
  rw [tagFacetsFold_fst]
  rw [foldTag_apply (fun f : Facet => f.s1 ≠ f.s2) (fun f => f.vs)
      (fun t => t == -1 || t > 2) 2 (by decide) facets d0 u]
  simp only [Bool.or_eq_true, beq_iff_eq, decide_eq_true_eq]

theorem tagFacets_snd (facets : List Facet) (d0 : Nat → Int) :
    (tagFacets facets d0).2 = facets.filter (fun f => decide (f.s1 ≠ f.s2)) := by
  unfold tagFacets
  have gen : ∀ (l : List Facet) (a : (Nat → Int) × List Facet),
      (l.foldl tagFacetStep a).2 = a.2 ++ l.filter (fun f => decide (f.s1 ≠ f.s2)) := by
    intro l
    induction l with
    | nil => intro a; simp
    | cons f l ih =>
      intro a
      rw [List.foldl_cons, ih, tagFacetStep_snd]
      by_cases h : f.s1 ≠ f.s2 <;> simp [h, List.filter_cons]
  simpa using gen facets (d0, [])

/-! Projections of the edge-tagging loop. -/

theorem tagEdgeStep_fst (ecmap : Nat → Nat → Bool) (a : (Nat → Int) × List Edge) (e : Edge) :
    (tagEdgeStep ecmap a e).1
      = if edgeIsComplex ecmap e = true then bumpAll (fun t => t == -1 || t > 1) 1 a.1 [e.v1, e.v2] else a.1 := by
  unfold tagEdgeStep
  by_cases h : edgeIsComplex ecmap e = true <;> simp [h]

theorem tagEdgeStep_snd (ecmap : Nat → Nat → Bool) (a : (Nat → Int) × List Edge) (e : Edge) :
    (tagEdgeStep ecmap a e).2 = a.2 ++ if edgeIsComplex ecmap e = true then [e] else [] := by
  unfold tagEdgeStep
  by_cases h : edgeIsComplex ecmap e = true <;> simp [h]

theorem tagEdgesFold_fst (ecmap : Nat → Nat → Bool) (l : List Edge) :
    ∀ a : (Nat → Int) × List Edge, (l.foldl (tagEdgeStep ecmap) a).1
      = l.foldl (fun dd e => if edgeIsComplex ecmap e = true then bumpAll (fun t => t == -1 || t > 1) 1 dd [e.v1, e.v2] else dd) a.1 := by
  induction l with
  | nil => intro a; rfl
  | cons e l ih =>
    intro a
    rw [List.foldl_cons, List.foldl_cons, ih, tagEdgeStep_fst]

theorem tagEdges_fst_apply (ecmap : Nat → Nat → Bool) (edges : List Edge) (d0 : Nat → Int) (u : Nat) :
    (tagEdges ecmap edges d0).1 u
      = if (d0 u = -1 ∨ d0 u > 1) ∧ ∃ e ∈ edges, edgeIsComplex ecmap e = true ∧ (u = e.v1 ∨ u = e.v2)
        then 1 else d0 u := by
  unfold tagEdges
  rw [tagEdgesFold_fst]
  rw [foldTag_apply (fun e : Edge => edgeIsComplex ecmap e = true) (fun e => [e.v1, e.v2])
      (fun t => t == -1 || t > 1) 1 (by decide) edges d0 u]
  simp only [Bool.or_eq_true, beq_iff_eq, decide_eq_true_eq, List.mem_cons,
    List.mem_singleton, List.not_mem_nil, or_false]

theorem tagEdges_snd (ecmap : Nat → Nat → Bool) (edges : List Edge) (d0 : Nat → Int) :
    (tagEdges ecmap edges d0).2 = edges.filter (edgeIsComplex ecmap) := by
  unfold tagEdges
  have gen : ∀ (l : List Edge) (a : (Nat → Int) × List Edge),
      (l.foldl (tagEdgeStep ecmap) a).2 = a.2 ++ l.filter (edgeIsComplex ecmap) := by
    intro l
    induction l with
    | nil => intro a; simp
    | cons e l ih =>
      intro a
      rw [List.foldl_cons, ih, tagEdgeStep_snd]
      by_cases h : edgeIsComplex ecmap e = true <;> simp [h, List.filter_cons]
  simpa using gen edges (d0, [])

/-! Projections of the vertex-tagging loop. The loop tests the dimension of
each vertex in sequence, but each iteration only rewrites the dimension of the
vertex it processes, and the vertex sequence has no duplicates, so every test
reads the dimension assignment in force when the loop started. -/

/-- The registration condition of the vertex-tagging loop, read at the
dimension assignment `d`. -/
def cornerCond (ce : List Edge) (d : Nat → Int) (v : Nat) : Prop :=
  d v = 0 ∨ nbIncidentComplexEdges ce v > 2

instance (ce : List Edge) (d : Nat → Int) (v : Nat) : Decidable (cornerCond ce d v) := by
  unfold cornerCond
  infer_instance

theorem tagVertexStep_dims_other (ce : List Edge) (a : VertAcc) (v u : Nat) (h : u ≠ v) :
    (tagVertexStep ce a v).dims u = a.dims u := by
  unfold tagVertexStep
  by_cases h1 : a.dims v = 0 ∨ nbIncidentComplexEdges ce v > 2
  · by_cases h2 : a.dims v = -1 ∨ a.dims v > 0 <;> simp [h1, h2, upd, h]
  · simp [h1]

theorem tagVertexStep_dims_self (ce : List Edge) (a : VertAcc) (v : Nat) :
    (tagVertexStep ce a v).dims v
      = if (a.dims v = 0 ∨ nbIncidentComplexEdges ce v > 2) ∧ (a.dims v = -1 ∨ a.dims v > 0)
        then 0 else a.dims v := by
  unfold tagVertexStep
  by_cases h1 : a.dims v = 0 ∨ nbIncidentComplexEdges ce v > 2
  · by_cases h2 : a.dims v = -1 ∨ a.dims v > 0 <;> simp [h1, h2, upd]
  · simp [h1]

theorem tagVertexStep_corners (ce : List Edge) (a : VertAcc) (v : Nat) :
    (tagVertexStep ce a v).corners
      = a.corners ++ if a.dims v = 0 ∨ nbIncidentComplexEdges ce v > 2
          then [(v, a.cid + 1)] else [] := by
  unfold tagVertexStep
  by_cases h1 : a.dims v = 0 ∨ nbIncidentComplexEdges ce v > 2
  · by_cases h2 : a.dims v = -1 ∨ a.dims v > 0 <;> simp [h1, h2]
  · simp [h1]

theorem tagVerticesFold (ce : List Edge) (d0 : Nat → Int) :
    ∀ (l : List Nat), l.Nodup → ∀ (a : VertAcc), (∀ v ∈ l, a.dims v = d0 v) →
      (∀ u, (l.foldl (tagVertexStep ce) a).dims u
        = if u ∈ l ∧ cornerCond ce d0 u ∧ (d0 u = -1 ∨ d0 u > 0) then 0 else a.dims u)
      ∧ (l.foldl (tagVertexStep ce) a).corners.map Prod.fst
        = a.corners.map Prod.fst ++ l.filter (fun v => decide (cornerCond ce d0 v)) := by
  intro l
  induction l with
  | nil =>
    intro _ a _
    constructor
    · intro u; simp
    · simp
  | cons v l ih =>
    intro hnd a hdim
    have hv : a.dims v = d0 v := hdim v (List.mem_cons_self v l)
    have hvl : v ∉ l := (List.nodup_cons.mp hnd).1
    have hnd2 : l.Nodup := (List.nodup_cons.mp hnd).2
    have hdim2 : ∀ u ∈ l, (tagVertexStep ce a v).dims u = d0 u := by
      intro u hu
      rw [tagVertexStep_dims_other ce a v u (fun he => hvl (he ▸ hu))]
      exact hdim u (List.mem_cons_of_mem v hu)
    obtain ⟨ihd, ihc⟩ := ih hnd2 (tagVertexStep ce a v) hdim2
    constructor
    · intro u
      rw [List.foldl_cons, ihd u]
      by_cases hul : u ∈ l
      · have huv : u ≠ v := fun he => hvl (he ▸ hul)
        by_cases hcc : cornerCond ce d0 u ∧ (d0 u = -1 ∨ d0 u > 0)
        · simp [hul, hcc, List.mem_cons]
        · simp only [hul, true_and, hcc, if_false, List.mem_cons]
          rw [tagVertexStep_dims_other ce a v u huv]
          simp [hcc, huv, hul]
      · by_cases huv : u = v
        · subst huv
          simp only [hul, false_and, if_false]
          rw [tagVertexStep_dims_self, hv]
          simp [cornerCond, List.mem_cons, hul]
        · simp only [hul, false_and, if_false, List.mem_cons, huv, false_or]
          rw [tagVertexStep_dims_other ce a v u huv]
    · rw [List.foldl_cons, ihc, tagVertexStep_corners, hv]
      by_cases hcc : cornerCond ce d0 v
      · have hcc2 : d0 v = 0 ∨ nbIncidentComplexEdges ce v > 2 := hcc
        simp [hcc, hcc2, List.filter_cons]
      · have hcc2 : ¬(d0 v = 0 ∨ nbIncidentComplexEdges ce v > 2) := hcc
        simp [hcc, hcc2, List.filter_cons]

theorem tagVertices_dims_apply (ce : List Edge) (nv : Nat) (d0 : Nat → Int) (u : Nat) :
    (tagVertices ce nv d0).dims u
      = if u < nv ∧ cornerCond ce d0 u ∧ (d0 u = -1 ∨ d0 u > 0) then 0 else d0 u := by
  unfold tagVertices
  have h := (tagVerticesFold ce d0 (List.range nv) (List.nodup_range nv)
    ⟨d0, [], 0⟩ (fun _ _ => rfl)).1 u
  rw [h]
  simp [List.mem_range]

theorem tagVertices_corners (ce : List Edge) (nv : Nat) (d0 : Nat → Int) :
    (tagVertices ce nv d0).corners.map Prod.fst
      = (List.range nv).filter (fun v => decide (cornerCond ce d0 v)) := by
  unfold tagVertices
  have h := (tagVerticesFold ce d0 (List.range nv) (List.nodup_range nv)
    ⟨d0, [], 0⟩ (fun _ _ => rfl)).2
  simpa using h

/-! Behavior of the iterator skipping loops. -/

theorem skipInfinite_getD (inf : List Bool) (i : Nat) :
    inf.getD (skipInfinite inf i) false = false := by
  have key : ∀ n i, inf.length - i ≤ n → inf.getD (skipInfinite inf i) false = false := by
    intro n
    induction n with
    | zero =>
      intro i hi
      rw [skipInfinite]
      have h : ¬ i < inf.length := by omega
      rw [dif_neg h]
      exact List.getD_eq_default _ _ (by omega)
    | succ n ih =>
      intro i hi
      rw [skipInfinite]
      by_cases h : i < inf.length
      · rw [dif_pos h]
        by_cases hb : inf.get ⟨i, h⟩ = true
        · simp only [hb, if_true]
          exact ih (i + 1) (by omega)
        · rw [if_neg hb, List.getD_eq_getElem inf false h]
          simpa using hb
      · rw [dif_neg h]
        exact List.getD_eq_default _ _ (by omega)
  exact key (inf.length - i) i le_rfl

theorem skipInfinite_mid (inf : List Bool) (i : Nat) :
    ∀ j, i ≤ j → j < skipInfinite inf i → inf.getD j false = true := by
  have key : ∀ n i, inf.length - i ≤ n →
      ∀ j, i ≤ j → j < skipInfinite inf i → inf.getD j false = true := by
    intro n
    induction n with
    | zero =>
      intro i hi j hij hj
      rw [skipInfinite] at hj
      have h : ¬ i < inf.length := by omega
      rw [dif_neg h] at hj
      omega
    | succ n ih =>
      intro i hi j hij hj
      rw [skipInfinite] at hj
      by_cases h : i < inf.length
      · rw [dif_pos h] at hj
        by_cases hb : inf.get ⟨i, h⟩ = true
        · simp only [hb, if_true] at hj
          by_cases hji : j = i
          · subst hji
            rw [List.getD_eq_getElem inf false h]
            exact hb
          · exact ih (i + 1) (by omega) j (by omega) hj
        · rw [if_neg hb] at hj
          omega
      · rw [dif_neg h] at hj
        omega
  exact key (inf.length - i) i le_rfl

theorem getD_true_count_pos (l : List Bool) :
    ∀ i, l.getD i false = true → 1 ≤ l.count true := by
  induction l with
  | nil =>
    intro i h
    simp [List.getD] at h
  | cons b t ih =>
    intro i h
    cases i with
    | zero =>
      have hb : b = true := by simpa [List.getD] using h
      simp [List.count_cons, hb]
    | succ n =>
      have := ih n (by simpa [List.getD] using h)
      rw [List.count_cons]
      split <;> omega

theorem count_le_one_getD_unique (l : List Bool) :
    l.count true ≤ 1 → ∀ i j, l.getD i false = true → l.getD j false = true → i = j := by
  induction l with
  | nil =>
    intro _ i j hi _
    simp [List.getD] at hi
  | cons b t ih =>
    intro h i j hi hj
    have ht : t.count true ≤ 1 := by
      rw [List.count_cons] at h
      split at h <;> omega
    cases i with
    | zero =>
      cases j with
      | zero => rfl
      | succ m =>
        exfalso
        have hb : b = true := by simpa [List.getD] using hi
        have hm := getD_true_count_pos t m (by simpa [List.getD] using hj)
        rw [List.count_cons] at h
        simp [hb] at h
        omega
    | succ n =>
      cases j with
      | zero =>
        exfalso
        have hb : b = true := by simpa [List.getD] using hj
        have hn := getD_true_count_pos t n (by simpa [List.getD] using hi)
        rw [List.count_cons] at h
        simp [hb] at h
        omega
      | succ m =>
        have := ih ht n m (by simpa [List.getD] using hi) (by simpa [List.getD] using hj)
        omega

theorem vertexItBegin_safe (inf : List Bool) (h : inf.count true ≤ 1) :
    inf.getD (vertexItBegin inf) false = false := by
  unfold vertexItBegin
  by_cases hb : inf.getD 0 false = true
  · rw [if_pos hb]
    by_cases hb2 : inf.getD 1 false = true
    · exact absurd (count_le_one_getD_unique inf h 0 1 hb hb2) (by omega)
    · simpa using hb2
  · rw [if_neg hb]
    simpa using hb

theorem vertexItNext_safe (inf : List Bool) (h : inf.count true ≤ 1) (i : Nat) :
    inf.getD (vertexItNext inf i) false = false := by
  unfold vertexItNext
  by_cases hb : inf.getD (i + 1) false = true
  · rw [if_pos hb]
    by_cases hb2 : inf.getD (i + 2) false = true
    · exact absurd (count_le_one_getD_unique inf h _ _ hb hb2) (by omega)
    · simpa using hb2
  · rw [if_neg hb]
    simpa using hb

/-! The dimension assignment after each phase of `init_c3t3`. -/

/-- The dimension assignment after the cell-tagging loop. -/
def dimsAfterCells (sel : Cell → Bool) (t : Tri) : Nat → Int :=
  (tagCells sel t.cells t.dims).dims

/-- The dimension assignment after the facet-tagging loop. -/
def dimsAfterFacets (sel : Cell → Bool) (t : Tri) : Nat → Int :=
  (tagFacets t.facets (dimsAfterCells sel t)).1

/-- The dimension assignment after the edge-tagging loop, just before the
vertex-tagging loop runs. -/
def dimsAfterEdges (sel : Cell → Bool) (ecmap : Nat → Nat → Bool) (t : Tri) : Nat → Int :=
  (tagEdges ecmap t.edges (dimsAfterFacets sel t)).1

theorem init_c3t3_complexEdges_def (sel : Cell → Bool) (ecmap : Nat → Nat → Bool) (t : Tri) :
    (init_c3t3 sel ecmap t).complexEdges
      = (tagEdges ecmap t.edges (dimsAfterFacets sel t)).2 := rfl

theorem init_c3t3_complexFacets_def (sel : Cell → Bool) (ecmap : Nat → Nat → Bool) (t : Tri) :
    (init_c3t3 sel ecmap t).complexFacets
      = (tagFacets t.facets (dimsAfterCells sel t)).2 := rfl

theorem init_c3t3_tri_dims_def (sel : Cell → Bool) (ecmap : Nat → Nat → Bool) (t : Tri) :
    (init_c3t3 sel ecmap t).tri.dims
      = (tagVertices (init_c3t3 sel ecmap t).complexEdges t.nv
          (dimsAfterEdges sel ecmap t)).dims := rfl

/-- Final dimension of a vertex, through the four phases of `init_c3t3`. -/
theorem init_c3t3_dims_apply (sel : Cell → Bool) (ecmap : Nat → Nat → Bool) (t : Tri) (u : Nat) :
    (init_c3t3 sel ecmap t).tri.dims u
      = if u < t.nv
          ∧ cornerCond (init_c3t3 sel ecmap t).complexEdges (dimsAfterEdges sel ecmap t) u
          ∧ (dimsAfterEdges sel ecmap t u = -1 ∨ dimsAfterEdges sel ecmap t u > 0)
        then 0 else dimsAfterEdges sel ecmap t u := by
  rw [init_c3t3_tri_dims_def, tagVertices_dims_apply]

/-! Claim C1: the resolution criterion. -/

theorem resolutionLoop_cons (protect : Bool) (sqmin sqmax : FT) (e : REdge) (rest : List REdge) :
    resolutionLoop protect sqmin sqmax (e :: rest)
      = if (protect && (e.inComplex || e.isBoundary)) = true
          then resolutionLoop protect sqmin sqmax rest
        else if e.isImaginary = true then resolutionLoop protect sqmin sqmax rest
        else if e.sqlen < sqmin ∨ e.sqlen > sqmax then false
        else resolutionLoop protect sqmin sqmax rest := rfl

theorem resolutionLoop_iff (protect : Bool) (sqmin sqmax : FT) :
    ∀ edges : List REdge, resolutionLoop protect sqmin sqmax edges = true
      ↔ ∀ e ∈ edges, (protect && (e.inComplex || e.isBoundary)) = false →
          e.isImaginary = false → sqmin ≤ e.sqlen ∧ e.sqlen ≤ sqmax := by
  intro edges
  induction edges with
  | nil => simp [resolutionLoop]
  | cons e rest ih =>
    rw [resolutionLoop_cons]
    by_cases h1 : (protect && (e.inComplex || e.isBoundary)) = true
    · rw [if_pos h1, ih]
      constructor
      · intro h x hx hx1 hx2
        rcases List.mem_cons.mp hx with hx0 | hx0
        · subst hx0
          exact absurd h1 (by simp [hx1])
        · exact h x hx0 hx1 hx2
      · intro h x hx hx1 hx2
        exact h x (List.mem_cons_of_mem e hx) hx1 hx2
    · rw [if_neg h1]
      have h1f : (protect && (e.inComplex || e.isBoundary)) = false := by
        simpa using h1
      by_cases h2 : e.isImaginary = true
      · rw [if_pos h2, ih]
        constructor
        · intro h x hx hx1 hx2
          rcases List.mem_cons.mp hx with hx0 | hx0
          · subst hx0
            exact absurd h2 (by simp [hx2])
          · exact h x hx0 hx1 hx2
        · intro h x hx hx1 hx2
          exact h x (List.mem_cons_of_mem e hx) hx1 hx2
      · rw [if_neg h2]
        have h2f : e.isImaginary = false := by simpa using h2
        by_cases h3 : e.sqlen < sqmin ∨ e.sqlen > sqmax
        · rw [if_pos h3]
          simp only [Bool.false_eq_true, false_iff]
          intro h
          have hbad := h e (List.mem_cons_self e rest) h1f h2f
          rcases h3 with h3 | h3
          · exact absurd hbad.1 (not_le.mpr h3)
          · exact absurd hbad.2 (not_le.mpr h3)
        · rw [if_neg h3, ih]
          push_neg at h3
          constructor
          · intro h x hx hx1 hx2
            rcases List.mem_cons.mp hx with hx0 | hx0
            · subst hx0
              exact h3
            · exact h x hx0 hx1 hx2
          · intro h x hx hx1 hx2
            exact h x (List.mem_cons_of_mem e hx) hx1 hx2

/-- Claim C1, counterexample: with `protect_boundaries = false` and sizing
value 3, a single complex, non-boundary, non-imaginary edge of squared length
100 makes `resolution_reached` return false, while the criterion as the claim
states it (complex edges excluded for every value of the flag) holds. -/
theorem resolution_reached_protect_cex :
    resolution_reached false 3 [⟨true, false, false, 100⟩] = false
    ∧ resolutionClaim 3 [⟨true, false, false, 100⟩] = true := by
  constructor
  · show resolutionLoop false (emin 3 * emin 3) (emax 3 * emax 3) [⟨true, false, false, 100⟩] = false
    rw [resolutionLoop_cons]
    rw [if_neg (by simp), if_neg (by simp)]
    rw [if_pos (Or.inr (by norm_num [emax]))]
  · rfl

/-- Claim C1 (amended): `resolution_reached` returns true if and only if every
finite edge that is not imaginary and, when `protect_boundaries` is set, is
neither a complex edge nor on the boundary, has its squared length inside
`[emin ^ 2, emax ^ 2]`; when `protect_boundaries` is not set, complex and
boundary edges are tested like every other edge. -/
theorem resolution_reached_iff (protect : Bool) (L : FT) (edges : List REdge) :
    resolution_reached protect L edges = true
      ↔ ∀ e ∈ edges, (protect && (e.inComplex || e.isBoundary)) = false →
          e.isImaginary = false →
          emin L * emin L ≤ e.sqlen ∧ e.sqlen ≤ emax L * emax L := by
  unfold resolution_reached
  exact resolutionLoop_iff protect (emin L * emin L) (emax L * emax L) edges

/-! Claim C2: vertex classification during the cell-tagging loop. -/

/-- A one-cell triangulation whose four vertices are all unclassified
(`in_dimension = -1`); its single cell has subdomain index 5. -/
def triOneCell : Tri :=
  { nv := 4, dims := fun _ => -1, pos := fun _ => (0, 0, 0)
  , cells := [⟨[0, 1, 2, 3], [0, 0, 0, 0], 5⟩], facets := [], edges := [] }

/-- Claim C2, counterexample: with a cell selector that rejects every cell,
vertex 0 of `triOneCell` is incident only to rejected cells and has
`in_dimension = -1`, yet initialization sets its dimension to 3: the
unconditional inner loop of the cell-tagging phase ignores the selector. -/
theorem init_c3t3_selector_cex :
    triOneCell.dims 0 = -1
    ∧ (init_c3t3 (fun _ => false) (fun _ _ => false) triOneCell).tri.dims 0 = 3 := by
  constructor
  · rfl
  · decide

/-- Claim C2 (amended): the cell-tagging loop of initialization sets exactly
those vertices with `in_dimension = -1` that are incident to some finite cell
to `in_dimension = 3`; the cell selector plays no role in this update, so the
result is the same for every selector. -/
theorem tagCells_dims_spec (sel sel2 : Cell → Bool) (t : Tri) (u : Nat) :
    dimsAfterCells sel t u
        = (if t.dims u = -1 ∧ ∃ c ∈ t.cells, u ∈ c.vs then 3 else t.dims u)
    ∧ dimsAfterCells sel t u = dimsAfterCells sel2 t u := by
  constructor
  · exact tagCells_dims_apply sel t.cells t.dims u
  · show (tagCells sel t.cells t.dims).dims u = (tagCells sel2 t.cells t.dims).dims u
    rw [tagCells_dims_apply, tagCells_dims_apply]

/-! Claim C3: the complex-edge set and endpoint dimensions. -/

/-- Claim C3: after initialization the complex-edge set equals the set of
finite edges that are either declared constrained by the edge-constraint map
or have more than 2 incident subdomains; every endpoint of a complex edge ends
with `in_dimension ≤ 1`; and an endpoint already at dimension 0 or 1 when the
edge loop starts is never raised afterwards. -/
theorem init_c3t3_complexEdges_spec (sel : Cell → Bool) (ecmap : Nat → Nat → Bool) (t : Tri) :
    (init_c3t3 sel ecmap t).complexEdges
        = t.edges.filter (fun e => ecmap e.v1 e.v2 || decide (nbIncidentSubdomains e > 2))
    ∧ (∀ e ∈ (init_c3t3 sel ecmap t).complexEdges,
        (init_c3t3 sel ecmap t).tri.dims e.v1 ≤ 1
        ∧ (init_c3t3 sel ecmap t).tri.dims e.v2 ≤ 1)
    ∧ (∀ v : Nat, dimsAfterFacets sel t v = 0 ∨ dimsAfterFacets sel t v = 1 →
        (init_c3t3 sel ecmap t).tri.dims v ≤ dimsAfterFacets sel t v) := by
  refine ⟨?_, ?_, ?_⟩
  · rw [init_c3t3_complexEdges_def, tagEdges_snd]
    rfl
  · intro e he
    rw [init_c3t3_complexEdges_def, tagEdges_snd] at he
    have hmem : e ∈ t.edges := (List.mem_filter.mp he).1
    have hcx : edgeIsComplex ecmap e = true := (List.mem_filter.mp he).2
    have key : ∀ w, w = e.v1 ∨ w = e.v2 → (init_c3t3 sel ecmap t).tri.dims w ≤ 1 := by
      intro w hw
      have hd3 : dimsAfterEdges sel ecmap t w ≤ 1 := by
        show (tagEdges ecmap t.edges (dimsAfterFacets sel t)).1 w ≤ 1
        rw [tagEdges_fst_apply]
        split_ifs with hcase
        · omega
        · have hB : ∃ e2 ∈ t.edges, edgeIsComplex ecmap e2 = true ∧ (w = e2.v1 ∨ w = e2.v2) :=
            ⟨e, hmem, hcx, hw⟩
          have hA : ¬(dimsAfterFacets sel t w = -1 ∨ dimsAfterFacets sel t w > 1) :=
            fun hA => hcase ⟨hA, hB⟩
          push_neg at hA
          omega
      rw [init_c3t3_dims_apply]
      split_ifs with h
      · omega
      · exact hd3
    exact ⟨key e.v1 (Or.inl rfl), key e.v2 (Or.inr rfl)⟩
  · intro v hv
    have hd3 : dimsAfterEdges sel ecmap t v = dimsAfterFacets sel t v := by
      show (tagEdges ecmap t.edges (dimsAfterFacets sel t)).1 v = dimsAfterFacets sel t v
      rw [tagEdges_fst_apply]
      rw [if_neg]
      rintro ⟨hA, _⟩
      rcases hv with hv | hv <;> rcases hA with hA | hA <;> omega
    rw [init_c3t3_dims_apply, hd3]
    split_ifs with h
    · rcases hv with hv | hv <;> omega
    · exact le_refl _

/-! Claim C4: the imaginary index and the `max_si` warning. -/

/-- The maximum subdomain index over a list of cells as the claim words it:
the plain maximum of the list, taken to be 0 when the list is empty. -/
def plainMaxSi (l : List Int) : Int :=
  match l with
  | [] => 0
  | x :: xs => xs.foldl max x

theorem foldl_max_shift (l : List Int) : ∀ a b : Int, l.foldl max (max a b) = max a (l.foldl max b) := by
  induction l with
  | nil => intro a b; rfl
  | cons c t ih =>
    intro a b
    rw [List.foldl_cons, List.foldl_cons, max_assoc, ih]

theorem foldl_max_zero (l : List Int) : l.foldl max 0 = max 0 (plainMaxSi l) := by
  cases l with
  | nil => simp [plainMaxSi]
  | cons x xs =>
    show xs.foldl max (max 0 x) = max 0 (xs.foldl max x)
    exact foldl_max_shift xs 0 x

/-- A one-cell triangulation whose single selected cell has the negative
subdomain index -5. -/
def triNegSub : Tri :=
  { nv := 4, dims := fun _ => 3, pos := fun _ => (0, 0, 0)
  , cells := [⟨[0, 1, 2, 3], [0, 0, 0, 0], -5⟩], facets := [], edges := [] }

/-- Claim C4, counterexample: with every cell selected, the maximum subdomain
index over the selected cells of `triNegSub` is -5, so the claim makes
`imaginary_index = -4`; the code folds `max` from 0 and produces 1. -/
theorem init_c3t3_imaginaryIndex_cex :
    plainMaxSi ((triNegSub.cells.filter (fun _ => true)).map Cell.subdomain) + 1 = -4
    ∧ (init_c3t3 (fun _ => true) (fun _ _ => false) triNegSub).imaginaryIndex = 1
    ∧ (init_c3t3 (fun _ => true) (fun _ _ => false) triNegSub).imaginaryIndex
        ≠ plainMaxSi ((triNegSub.cells.filter (fun _ => true)).map Cell.subdomain) + 1 := by
  refine ⟨by decide, by decide, by decide⟩

/-- Claim C4 (amended): initialization sets
`imaginary_index = max 0 M + 1`, where `M` is the maximum subdomain index over
the selected finite cells (0 when no cell is selected); the running `max_si`
starts at 0, so a negative maximum is clipped to 0. The non-fatal warning is
recorded exactly when that clipped maximum is 0. -/
theorem init_c3t3_imaginaryIndex_spec (sel : Cell → Bool) (ecmap : Nat → Nat → Bool) (t : Tri) :
    (init_c3t3 sel ecmap t).imaginaryIndex
        = max 0 (plainMaxSi ((t.cells.filter sel).map Cell.subdomain)) + 1
    ∧ ((init_c3t3 sel ecmap t).warned = true
        ↔ max 0 (plainMaxSi ((t.cells.filter sel).map Cell.subdomain)) = 0) := by
  have hmax : (tagCells sel t.cells t.dims).maxSi
      = max 0 (plainMaxSi ((t.cells.filter sel).map Cell.subdomain)) := by
    unfold tagCells
    rw [tagCellsFold_maxSi]
    rw [List.enum_map_snd]
    exact foldl_max_zero _
  constructor
  · show (tagCells sel t.cells t.dims).maxSi + 1 = _
    rw [hmax]
  · show ((tagCells sel t.cells t.dims).maxSi == 0) = true ↔ _
    rw [beq_iff_eq, hmax]

/-! Claim C5: after initialization every finite vertex has a dimension in
{0, 1, 2, 3}, so the assertion guarding the split and collapse phases holds. -/

/-- Claim C5: for an input triangulation whose vertex dimensions respect the
data model (each in {-1, 0, 1, 2, 3}) and in which every unclassified finite
vertex is incident to some finite cell, initialization leaves every finite
vertex with `in_dimension` in {0, 1, 2, 3}: the `check_vertex_dimensions`
predicate asserted on entry to the split and collapse phases returns true. -/
theorem init_c3t3_check_dims (sel : Cell → Bool) (ecmap : Nat → Nat → Bool) (t : Tri)
    (hrange : ∀ v, v < t.nv → -1 ≤ t.dims v ∧ t.dims v ≤ 3)
    (hcover : ∀ v, v < t.nv → t.dims v = -1 → ∃ c ∈ t.cells, v ∈ c.vs) :
    check_vertex_dimensions (init_c3t3 sel ecmap t) = true := by
  unfold check_vertex_dimensions
  rw [List.all_eq_true]
  intro v hv
  rw [List.mem_range] at hv
  have hv2 : v < t.nv := hv
  have h1 : 0 ≤ dimsAfterCells sel t v ∧ dimsAfterCells sel t v ≤ 3 := by
    have e1 := tagCells_dims_apply sel t.cells t.dims v
    by_cases hA : t.dims v = -1
    · have hB := hcover v hv2 hA
      show 0 ≤ (tagCells sel t.cells t.dims).dims v ∧ (tagCells sel t.cells t.dims).dims v ≤ 3
      rw [e1, if_pos ⟨hA, hB⟩]
      omega
    · show 0 ≤ (tagCells sel t.cells t.dims).dims v ∧ (tagCells sel t.cells t.dims).dims v ≤ 3
      rw [e1, if_neg (fun h => hA h.1)]
      have := hrange v hv2
      omega
  have h2 : 0 ≤ dimsAfterFacets sel t v ∧ dimsAfterFacets sel t v ≤ 3 := by
    have e2 := tagFacets_fst_apply t.facets (dimsAfterCells sel t) v
    show 0 ≤ (tagFacets t.facets (dimsAfterCells sel t)).1 v
      ∧ (tagFacets t.facets (dimsAfterCells sel t)).1 v ≤ 3
    rw [e2]
    split_ifs <;> omega
  have h3 : 0 ≤ dimsAfterEdges sel ecmap t v ∧ dimsAfterEdges sel ecmap t v ≤ 3 := by
    have e3 := tagEdges_fst_apply ecmap t.edges (dimsAfterFacets sel t) v
    show 0 ≤ (tagEdges ecmap t.edges (dimsAfterFacets sel t)).1 v
      ∧ (tagEdges ecmap t.edges (dimsAfterFacets sel t)).1 v ≤ 3
    rw [e3]
    split_ifs <;> omega
  have h4 : 0 ≤ (init_c3t3 sel ecmap t).tri.dims v ∧ (init_c3t3 sel ecmap t).tri.dims v ≤ 3 := by
    rw [init_c3t3_dims_apply]
    split_ifs <;> omega
  simp only [Bool.not_eq_true', Bool.or_eq_false_iff, decide_eq_false_iff_not, not_lt]
  omega

/-- Claim C5, witness: the concrete one-cell triangulation with all vertices
unclassified satisfies both admissibility hypotheses, and the check passes. -/
theorem init_c3t3_check_dims_witness :
    check_vertex_dimensions (init_c3t3 (fun _ => true) (fun _ _ => false) triOneCell) = true := by
  apply init_c3t3_check_dims
  · intro v hv
    constructor
    · show (-1 : Int) ≤ -1
      decide
    · show (-1 : Int) ≤ 3
      decide
  · intro v hv hdim
    refine ⟨⟨[0, 1, 2, 3], [0, 0, 0, 0], 5⟩, by decide, ?_⟩
    have hv4 : v < 4 := hv
    interval_cases v <;> decide

/-! Claim C6: corner registration. -/

theorem dimsAfterCells_cases (sel : Cell → Bool) (t : Tri) (v : Nat) :
    dimsAfterCells sel t v = 3 ∨ dimsAfterCells sel t v = t.dims v := by
  show (tagCells sel t.cells t.dims).dims v = 3 ∨ (tagCells sel t.cells t.dims).dims v = t.dims v
  rw [tagCells_dims_apply]
  split_ifs
  · exact Or.inl rfl
  · exact Or.inr rfl

theorem dimsAfterFacets_cases (sel : Cell → Bool) (t : Tri) (v : Nat) :
    dimsAfterFacets sel t v = 2 ∨ dimsAfterFacets sel t v = dimsAfterCells sel t v := by
  show (tagFacets t.facets (dimsAfterCells sel t)).1 v = 2
    ∨ (tagFacets t.facets (dimsAfterCells sel t)).1 v = dimsAfterCells sel t v
  rw [tagFacets_fst_apply]
  split_ifs
  · exact Or.inl rfl
  · exact Or.inr rfl

theorem dimsAfterEdges_cases (sel : Cell → Bool) (ecmap : Nat → Nat → Bool) (t : Tri) (v : Nat) :
    dimsAfterEdges sel ecmap t v = 1 ∨ dimsAfterEdges sel ecmap t v = dimsAfterFacets sel t v := by
  show (tagEdges ecmap t.edges (dimsAfterFacets sel t)).1 v = 1
    ∨ (tagEdges ecmap t.edges (dimsAfterFacets sel t)).1 v = dimsAfterFacets sel t v
  rw [tagEdges_fst_apply]
  split_ifs
  · exact Or.inl rfl
  · exact Or.inr rfl

theorem dimsAfterCells_of_ne (sel : Cell → Bool) (t : Tri) (v : Nat) (h : t.dims v ≠ -1) :
    dimsAfterCells sel t v = t.dims v := by
  show (tagCells sel t.cells t.dims).dims v = t.dims v
  rw [tagCells_dims_apply, if_neg (fun hc => h hc.1)]

theorem dimsAfterFacets_of_le (sel : Cell → Bool) (t : Tri) (v : Nat)
    (h : dimsAfterCells sel t v ≠ -1) (h2 : dimsAfterCells sel t v ≤ 2) :
    dimsAfterFacets sel t v = dimsAfterCells sel t v := by
  show (tagFacets t.facets (dimsAfterCells sel t)).1 v = dimsAfterCells sel t v
  rw [tagFacets_fst_apply, if_neg]
  rintro ⟨hA | hA, _⟩ <;> omega

theorem dimsAfterEdges_of_le (sel : Cell → Bool) (ecmap : Nat → Nat → Bool) (t : Tri) (v : Nat)
    (h : dimsAfterFacets sel t v ≠ -1) (h2 : dimsAfterFacets sel t v ≤ 1) :
    dimsAfterEdges sel ecmap t v = dimsAfterFacets sel t v := by
  show (tagEdges ecmap t.edges (dimsAfterFacets sel t)).1 v = dimsAfterFacets sel t v
  rw [tagEdges_fst_apply, if_neg]
  rintro ⟨hA | hA, _⟩ <;> omega

/-- A vertex enters the vertex-tagging loop with dimension 0 exactly when it
had dimension 0 on input: the three earlier loops assign only 3, 2 and 1, and
never touch a vertex at dimension 0. -/
theorem dimsAfterEdges_eq_zero_iff (sel : Cell → Bool) (ecmap : Nat → Nat → Bool)
    (t : Tri) (v : Nat) :
    dimsAfterEdges sel ecmap t v = 0 ↔ t.dims v = 0 := by
  constructor
  · intro h
    rcases dimsAfterEdges_cases sel ecmap t v with h3 | h3
    · omega
    · rcases dimsAfterFacets_cases sel t v with h2 | h2
      · omega
      · rcases dimsAfterCells_cases sel t v with h1 | h1
        · omega
        · omega
  · intro h
    have h1 : dimsAfterCells sel t v = t.dims v := dimsAfterCells_of_ne sel t v (by omega)
    have h2 : dimsAfterFacets sel t v = dimsAfterCells sel t v :=
      dimsAfterFacets_of_le sel t v (by omega) (by omega)
    have h3 : dimsAfterEdges sel ecmap t v = dimsAfterFacets sel t v :=
      dimsAfterEdges_of_le sel ecmap t v (by omega) (by omega)
    omega

theorem init_c3t3_corners_def (sel : Cell → Bool) (ecmap : Nat → Nat → Bool) (t : Tri) :
    (init_c3t3 sel ecmap t).corners
      = (tagVertices (init_c3t3 sel ecmap t).complexEdges t.nv
          (dimsAfterEdges sel ecmap t)).corners := rfl

/-- Claim C6: a finite vertex is registered as a corner if and only if it has
`in_dimension = 0` or more than 2 incident complex edges, and every registered
corner ends with `in_dimension = 0`. The hypothesis asks the input dimensions
to be at least -1, as the data model prescribes. -/
theorem init_c3t3_corners_spec (sel : Cell → Bool) (ecmap : Nat → Nat → Bool) (t : Tri)
    (hge : ∀ v, -1 ≤ t.dims v) :
    (∀ v, v < t.nv →
      (v ∈ (init_c3t3 sel ecmap t).corners.map Prod.fst
        ↔ (t.dims v = 0
            ∨ nbIncidentComplexEdges (init_c3t3 sel ecmap t).complexEdges v > 2)))
    ∧ ∀ p ∈ (init_c3t3 sel ecmap t).corners, (init_c3t3 sel ecmap t).tri.dims p.1 = 0 := by
  have hmem : ∀ v, v ∈ (init_c3t3 sel ecmap t).corners.map Prod.fst
      ↔ (v < t.nv ∧ cornerCond (init_c3t3 sel ecmap t).complexEdges
            (dimsAfterEdges sel ecmap t) v) := by
    intro v
    rw [init_c3t3_corners_def, tagVertices_corners]
    rw [List.mem_filter, List.mem_range]
    simp only [decide_eq_true_eq]
  have hd3ge : ∀ v, -1 ≤ dimsAfterEdges sel ecmap t v := by
    intro v
    rcases dimsAfterEdges_cases sel ecmap t v with h3 | h3
    · omega
    · rcases dimsAfterFacets_cases sel t v with h2 | h2
      · omega
      · rcases dimsAfterCells_cases sel t v with h1 | h1
        · omega
        · have := hge v
          omega
  constructor
  · intro v hv
    rw [hmem v]
    unfold cornerCond
    rw [dimsAfterEdges_eq_zero_iff]
    constructor
    · intro h
      exact h.2
    · intro h
      exact ⟨hv, h⟩
  · intro p hp
    have hp1 : p.1 ∈ (init_c3t3 sel ecmap t).corners.map Prod.fst :=
      List.mem_map_of_mem Prod.fst hp
    rw [hmem p.1] at hp1
    rw [init_c3t3_dims_apply]
    by_cases hlow : dimsAfterEdges sel ecmap t p.1 = -1 ∨ dimsAfterEdges sel ecmap t p.1 > 0
    · rw [if_pos ⟨hp1.1, hp1.2, hlow⟩]
    · rw [if_neg (fun hc => hlow hc.2.2)]
      have := hd3ge p.1
      omega

/-- Claim C6, witness: the corner characterization applied to the concrete
one-cell triangulation whose input dimensions are all -1. -/
theorem init_c3t3_corners_spec_witness :
    (∀ v, v < triOneCell.nv →
      (v ∈ (init_c3t3 (fun _ => true) (fun _ _ => false) triOneCell).corners.map Prod.fst
        ↔ (triOneCell.dims v = 0
            ∨ nbIncidentComplexEdges
                (init_c3t3 (fun _ => true) (fun _ _ => false) triOneCell).complexEdges v > 2)))
    ∧ ∀ p ∈ (init_c3t3 (fun _ => true) (fun _ _ => false) triOneCell).corners,
        (init_c3t3 (fun _ => true) (fun _ _ => false) triOneCell).tri.dims p.1 = 0 := by
  apply init_c3t3_corners_spec
  intro v
  show (-1 : Int) ≤ -1
  decide

/-! Claim C7: the complex-facet set and incident vertex dimensions. -/

/-- Claim C7: a finite facet is added to the complex if and only if the
subdomain indices of its two incident cells differ; each vertex of a complex
facet ends with `in_dimension ≤ 2`; and a vertex already at dimension 0, 1 or
2 when the facet loop starts is never raised afterwards. -/
theorem init_c3t3_complexFacets_spec (sel : Cell → Bool) (ecmap : Nat → Nat → Bool) (t : Tri) :
    (init_c3t3 sel ecmap t).complexFacets = t.facets.filter (fun f => decide (f.s1 ≠ f.s2))
    ∧ (∀ f ∈ (init_c3t3 sel ecmap t).complexFacets, ∀ v ∈ f.vs,
        (init_c3t3 sel ecmap t).tri.dims v ≤ 2)
    ∧ (∀ v, 0 ≤ dimsAfterCells sel t v ∧ dimsAfterCells sel t v ≤ 2 →
        (init_c3t3 sel ecmap t).tri.dims v ≤ dimsAfterCells sel t v) := by
  refine ⟨?_, ?_, ?_⟩
  · rw [init_c3t3_complexFacets_def, tagFacets_snd]
  · intro f hf v hv
    rw [init_c3t3_complexFacets_def, tagFacets_snd] at hf
    have hfm : f ∈ t.facets := (List.mem_filter.mp hf).1
    have hfne : f.s1 ≠ f.s2 := by
      have := (List.mem_filter.mp hf).2
      simpa using this
    have h2 : dimsAfterFacets sel t v ≤ 2 := by
      show (tagFacets t.facets (dimsAfterCells sel t)).1 v ≤ 2
      rw [tagFacets_fst_apply]
      split_ifs with hc
      · omega
      · have hB : ∃ f2 ∈ t.facets, f2.s1 ≠ f2.s2 ∧ v ∈ f2.vs := ⟨f, hfm, hfne, hv⟩
        have hA : ¬(dimsAfterCells sel t v = -1 ∨ dimsAfterCells sel t v > 2) :=
          fun hA => hc ⟨hA, hB⟩
        push_neg at hA
        omega
    have h3 : dimsAfterEdges sel ecmap t v ≤ 2 := by
      rcases dimsAfterEdges_cases sel ecmap t v with h | h <;> omega
    rw [init_c3t3_dims_apply]
    split_ifs <;> omega
  · intro v hv
    have h2 : dimsAfterFacets sel t v = dimsAfterCells sel t v :=
      dimsAfterFacets_of_le sel t v (by omega) (by omega)
    have h3 : dimsAfterEdges sel ecmap t v ≤ dimsAfterCells sel t v := by
      show (tagEdges ecmap t.edges (dimsAfterFacets sel t)).1 v ≤ dimsAfterCells sel t v
      rw [tagEdges_fst_apply]
      split_ifs with hc
      · rw [h2] at hc
        rcases hc.1 with h | h <;> omega
      · omega
    rw [init_c3t3_dims_apply]
    split_ifs <;> omega

/-! Claim C8: postprocess removes exactly the imaginary cells from the
complex and changes nothing else. -/

theorem removeFold (imag : Int) :
    ∀ (l : List (Nat × Cell)) (cc : List (Nat × Int)),
      l.foldl (fun cc p => if p.2.subdomain = imag then remove_from_complex cc p.1 else cc) cc
        = cc.filter (fun q => decide (∀ p ∈ l, p.2.subdomain = imag → q.1 ≠ p.1)) := by
  intro l
  induction l with
  | nil =>
    intro cc
    simp
  | cons p l ih =>
    intro cc
    rw [List.foldl_cons]
    by_cases hp : p.2.subdomain = imag
    · rw [if_pos hp, ih]
      unfold remove_from_complex
      rw [List.filter_filter]
      apply List.filter_congr
      intro q hq
      rw [Bool.eq_iff_iff]
      simp [List.forall_mem_cons, hp, and_comm]
    · rw [if_neg hp, ih]
      apply List.filter_congr
      intro q hq
      simp [List.forall_mem_cons, hp]

/-- Claim C8: `postprocess` removes from the complex exactly the finite cells
whose subdomain index equals the imaginary index; the triangulation (vertices,
dimensions, positions, cells with their neighbors and subdomain tags) and all
other complex sets are untouched. The hypothesis asks the complex-cell entries
to point at cells of the triangulation. -/
theorem postprocess_spec (c : C3t3)
    (hcc : ∀ q ∈ c.complexCells, q.1 < c.tri.cells.length) :
    (postprocess c).tri = c.tri
    ∧ (postprocess c).complexFacets = c.complexFacets
    ∧ (postprocess c).complexEdges = c.complexEdges
    ∧ (postprocess c).corners = c.corners
    ∧ (postprocess c).imaginaryIndex = c.imaginaryIndex
    ∧ (postprocess c).warned = c.warned
    ∧ (postprocess c).complexCells
        = c.complexCells.filter
            (fun q => decide ((c.tri.cells.getD q.1 ⟨[], [], 0⟩).subdomain ≠ c.imaginaryIndex)) := by
  refine ⟨rfl, rfl, rfl, rfl, rfl, rfl, ?_⟩
  show c.tri.cells.enum.foldl
      (fun cc p => if p.2.subdomain = c.imaginaryIndex then remove_from_complex cc p.1 else cc)
      c.complexCells = _
  rw [removeFold]
  apply List.filter_congr
  intro q hq
  have hqlen := hcc q hq
  rw [decide_eq_decide, List.forall_mem_enum]
  constructor
  · intro h hsub
    rw [List.getD_eq_getElem c.tri.cells ⟨[], [], 0⟩ hqlen] at hsub
    exact (h q.1 hqlen hsub) rfl
  · intro h i hi hs heq
    apply h
    rw [heq, List.getD_eq_getElem c.tri.cells ⟨[], [], 0⟩ hi]
    exact hs

/-- A concrete complex with one real cell (subdomain 1) and one imaginary cell
(subdomain 2 = the imaginary index), both in the complex. -/
def c3t3Post : C3t3 :=
  { tri := { nv := 4, dims := fun _ => 3, pos := fun _ => (0, 0, 0)
           , cells := [⟨[0, 1, 2, 3], [0, 0, 0, 0], 1⟩, ⟨[0, 1, 2, 3], [0, 0, 0, 0], 2⟩]
           , facets := [], edges := [] }
  , complexCells := [(0, 1), (1, 2)], complexFacets := [], complexEdges := []
  , corners := [], imaginaryIndex := 2, warned := false }

/-- Claim C8, witness: the frame property applied to the concrete complex. -/
theorem postprocess_spec_witness :
    (postprocess c3t3Post).tri = c3t3Post.tri
    ∧ (postprocess c3t3Post).complexFacets = c3t3Post.complexFacets
    ∧ (postprocess c3t3Post).complexEdges = c3t3Post.complexEdges
    ∧ (postprocess c3t3Post).corners = c3t3Post.corners
    ∧ (postprocess c3t3Post).imaginaryIndex = c3t3Post.imaginaryIndex
    ∧ (postprocess c3t3Post).warned = c3t3Post.warned
    ∧ (postprocess c3t3Post).complexCells
        = c3t3Post.complexCells.filter
            (fun q => decide ((c3t3Post.tri.cells.getD q.1 ⟨[], [], 0⟩).subdomain
                ≠ c3t3Post.imaginaryIndex)) := by
  apply postprocess_spec
  decide

/-! Claim C9: the swap pair of the remesher. -/

/-- Claim C9: the constructor swaps the caller triangulation into the internal
storage, so that between construction and `finalize` the caller object holds
the default-constructed empty triangulation; `finalize` swaps back, so after
any in-place transformation `f` of the internal triangulation the caller
object holds the transformed mesh. -/
theorem remesher_swap_pair (t : Tri) (f : Tri → Tri) :
    (constructRemesher t).m_c3t3_tr = t
    ∧ (constructRemesher t).m_tr = emptyTri
    ∧ (finalizeRemesher ⟨(constructRemesher t).m_tr, f (constructRemesher t).m_c3t3_tr⟩).m_tr
        = f t
    ∧ (finalizeRemesher ⟨(constructRemesher t).m_tr, f (constructRemesher t).m_c3t3_tr⟩).m_c3t3_tr
        = emptyTri :=
  ⟨rfl, rfl, rfl, rfl⟩

/-! Claim C10: the finite-mode triangulation iterators. -/

/-- Claim C10: over any triangulation with at most one infinite vertex, the
finite-mode iterators never stop on an infinite element. Each advance of the
cell, edge and facet iterators lands on a finite element or past the end,
skipping only infinite elements on the way; the vertex iterator advances by at
most 2 positions, and both its begin position and every advance land on a
finite vertex or past the end. -/
theorem iterators_finite_spec (infC infE infF infV : List Bool) (i j : Nat)
    (hV : infV.count true ≤ 1) :
    infC.getD (cellItBegin infC) false = false
    ∧ infC.getD (cellItNext infC i) false = false
    ∧ (i + 1 ≤ j → j < cellItNext infC i → infC.getD j false = true)
    ∧ infE.getD (edgeItNext infE i) false = false
    ∧ (i + 1 ≤ j → j < edgeItNext infE i → infE.getD j false = true)
    ∧ infF.getD (facetItNext infF i) false = false
    ∧ (i + 1 ≤ j → j < facetItNext infF i → infF.getD j false = true)
    ∧ vertexItNext infV i ≤ i + 2
    ∧ infV.getD (vertexItBegin infV) false = false
    ∧ infV.getD (vertexItNext infV i) false = false := by
  refine ⟨skipInfinite_getD infC 0, skipInfinite_getD infC (i + 1), ?_,
    skipInfinite_getD infE (i + 1), ?_, skipInfinite_getD infF (i + 1), ?_, ?_,
    vertexItBegin_safe infV hV, vertexItNext_safe infV hV i⟩
  · intro h1 h2
    exact skipInfinite_mid infC (i + 1) j h1 h2
  · intro h1 h2
    exact skipInfinite_mid infE (i + 1) j h1 h2
  · intro h1 h2
    exact skipInfinite_mid infF (i + 1) j h1 h2
  · unfold vertexItNext
    split_ifs <;> omega

/-- Claim C10, witness: the iterator properties at a concrete sequence with
one leading infinite cell and one infinite vertex. -/
theorem iterators_finite_spec_witness :
    [true, false].getD (cellItBegin [true, false]) false = false
    ∧ [true, false].getD (cellItNext [true, false] 0) false = false
    ∧ (0 + 1 ≤ 1 → 1 < cellItNext [true, false] 0 → [true, false].getD 1 false = true)
    ∧ [false, true].getD (edgeItNext [false, true] 0) false = false
    ∧ (0 + 1 ≤ 1 → 1 < edgeItNext [false, true] 0 → [false, true].getD 1 false = true)
    ∧ [false, false].getD (facetItNext [false, false] 0) false = false
    ∧ (0 + 1 ≤ 1 → 1 < facetItNext [false, false] 0 → [false, false].getD 1 false = true)
    ∧ vertexItNext [true, false, false] 0 ≤ 0 + 2
    ∧ [true, false, false].getD (vertexItBegin [true, false, false]) false = false
    ∧ [true, false, false].getD (vertexItNext [true, false, false] 0) false = false :=
  iterators_finite_spec [true, false] [false, true] [false, false] [true, false, false] 0 1
    (by decide)

end CGALRemeshing
